import Mathlib

/-!
Verification of the tescord command/interaction-routing core against its
natural-language specification.  The repository's TypeScript sources are
shallowly embedded: JS strings become Lean `String`, JS arrays become `List`,
keyed `Collection`/`Map` objects become insertion-ordered association lists
(`lookupKV`/`setKV`), fallible handlers return `Except`, and `undefined`
becomes `Option.none`.  Stateful methods are embedded as pure functions that
return the updated state alongside their result.
-/

namespace Tescord

/-! ### Generic association-list operations

Embedding of JS `Map`/discord.js `Collection` semantics: `lookupKV` is
`get` (first binding wins; real maps have unique keys), `setKV` is `set`
(replace in place, or append when the key is new). -/

def lookupKV {β : Type _} : List (String × β) → String → Option β
  | [], _ => none
  | (k, v) :: rest, key => if k = key then some v else lookupKV rest key

def setKV {β : Type _} : List (String × β) → String → β → List (String × β)
  | [], key, v => [(key, v)]
  | (k, w) :: rest, key, v =>
    if k = key then (key, v) :: rest else (k, w) :: setKV rest key v

theorem lookupKV_setKV_self {β : Type _} (l : List (String × β)) (k : String) (v : β) :
    lookupKV (setKV l k v) k = some v := by
  induction l with
  | nil => simp [setKV, lookupKV]
  | cons hd tl ih =>
    obtain ⟨k0, w0⟩ := hd
    by_cases h : k0 = k
    · simp [setKV, h, lookupKV]
    · simp [setKV, h, lookupKV, ih]

theorem lookupKV_setKV_ne {β : Type _} (l : List (String × β)) (k k2 : String) (v : β)
    (h : k2 ≠ k) : lookupKV (setKV l k2 v) k = lookupKV l k := by
  induction l with
  | nil => simp [setKV, lookupKV, h]
  | cons hd tl ih =>
    obtain ⟨k0, w0⟩ := hd
    by_cases h0 : k0 = k2
    · subst h0
      simp [setKV, lookupKV, h]
    · simp [setKV, h0, lookupKV, ih]

theorem lookupKV_append {β : Type _} (l1 l2 : List (String × β)) (k : String) :
    lookupKV (l1 ++ l2) k =
      match lookupKV l1 k with
      | some v => some v
      | none => lookupKV l2 k := by
  induction l1 with
  | nil => simp [lookupKV]
  | cons hd tl ih =>
    obtain ⟨k0, w0⟩ := hd
    by_cases h : k0 = k
    · simp [lookupKV, h]
    · simp [lookupKV, h, ih]

/-! ### String splitting and joining

`splitChars` embeds JS `String.prototype.split` with a one-character
separator, at the level of character lists; `jsJoin` embeds
`Array.prototype.join`. -/

def splitChars (c : Char) : List Char → List (List Char)
  | [] => [[]]
  | ch :: rest =>
    if ch = c then [] :: splitChars c rest
    else
      match splitChars c rest with
      | [] => [[ch]]
      | h :: t => (ch :: h) :: t

theorem splitChars_ne_nil (c : Char) (l : List Char) : splitChars c l ≠ [] := by
  induction l with
  | nil => simp [splitChars]
  | cons ch rest ih =>
    by_cases h : ch = c
    · simp [splitChars, h]
    · simp only [splitChars, h, if_false]
      cases hs : splitChars c rest with
      | nil => simp
      | cons a t => simp

theorem splitChars_of_not_mem (c : Char) (l : List Char) (h : c ∉ l) :
    splitChars c l = [l] := by
  induction l with
  | nil => simp [splitChars]
  | cons ch rest ih =>
    have hne : ch ≠ c := fun he => h (by simp [he])
    have hrest : c ∉ rest := fun hm => h (by simp [hm])
    simp [splitChars, hne, ih hrest]

theorem splitChars_append_cons (c : Char) (l1 l2 : List Char) (h : c ∉ l1) :
    splitChars c (l1 ++ c :: l2) = l1 :: splitChars c l2 := by
  induction l1 with
  | nil => simp [splitChars]
  | cons ch rest ih =>
    have hne : ch ≠ c := fun he => h (by simp [he])
    have hrest : c ∉ rest := fun hm => h (by simp [hm])
    simp only [List.cons_append, splitChars, hne, if_false]
    rw [show rest.append (c :: l2) = rest ++ c :: l2 from rfl, ih hrest]

def splitOnChar (s : String) (c : Char) : List String :=
  (splitChars c s.data).map (fun l => String.mk l)

def jsJoin (sep : String) : List String → String
  | [] => ""
  | [x] => x
  | x :: y :: rest => x ++ sep ++ jsJoin sep (y :: rest)

/-! ### Decimal printing and parsing

Embedding of `Number.prototype.toString()` and `Number(...)` as used by the
custom-data codec.  The codec only ever serialises the built-in scalar types,
so JS numbers are modelled as integers; printing uses the standard
base-10 digit expansion (with an explicit fuel argument, `fuel = n + 1`
always suffices, mirroring how the runtime's own conversion terminates). -/

def digitChar (d : Nat) : Char := Char.ofNat (48 + d)

def natToDigitsAux : Nat → Nat → List Char
  | 0, _ => []
  | fuel + 1, n =>
    if n < 10 then [digitChar n]
    else natToDigitsAux fuel (n / 10) ++ [digitChar (n % 10)]

def natToString (n : Nat) : String := String.mk (natToDigitsAux (n + 1) n)

def jsNumToString (i : Int) : String :=
  if i < 0 then "-" ++ natToString (-i).toNat else natToString i.toNat

def digitVal (c : Char) : Nat := c.toNat - 48

def parseNatChars (l : List Char) : Nat :=
  l.foldl (fun a c => a * 10 + digitVal c) 0

def jsNumberOfString (s : String) : Int :=
  match s.data with
  | c :: rest =>
    if c = '-' then -(parseNatChars rest : Int) else (parseNatChars (c :: rest) : Int)
  | [] => (parseNatChars [] : Int)

theorem digitChar_toNat (d : Nat) (h : d < 10) : (digitChar d).toNat = 48 + d := by
  interval_cases d <;> decide

theorem digitVal_digitChar (d : Nat) (h : d < 10) : digitVal (digitChar d) = d := by
  simp [digitVal, digitChar_toNat d h]

theorem mem_natToDigitsAux_toNat (fuel n : Nat) (c : Char)
    (hc : c ∈ natToDigitsAux fuel n) : 48 ≤ c.toNat ∧ c.toNat < 58 := by
  induction fuel generalizing n with
  | zero => simp [natToDigitsAux] at hc
  | succ fuel ih =>
    by_cases h : n < 10
    · simp [natToDigitsAux, h] at hc
      subst hc
      rw [digitChar_toNat n h]
      omega
    · simp only [natToDigitsAux, h, if_false, List.mem_append, List.mem_singleton] at hc
      rcases hc with hc | hc
      · exact ih _ hc
      · subst hc
        rw [digitChar_toNat (n % 10) (Nat.mod_lt n (by omega))]
        have := Nat.mod_lt n (show 0 < 10 by omega)
        omega

theorem parseNatChars_append_singleton (l : List Char) (c : Char) :
    parseNatChars (l ++ [c]) = parseNatChars l * 10 + digitVal c := by
  simp [parseNatChars, List.foldl_append]

theorem parseNatChars_natToDigitsAux (fuel n : Nat) (h : n < fuel) :
    parseNatChars (natToDigitsAux fuel n) = n := by
  induction fuel generalizing n with
  | zero => omega
  | succ fuel ih =>
    by_cases h10 : n < 10
    · simp [natToDigitsAux, h10, parseNatChars, digitVal_digitChar n h10]
    · have hdiv : n / 10 < fuel := by
        have := Nat.div_lt_self (show 0 < n by omega) (show 1 < 10 by omega)
        omega
      simp only [natToDigitsAux, h10, if_false]
      rw [parseNatChars_append_singleton, ih _ hdiv,
        digitVal_digitChar (n % 10) (Nat.mod_lt n (by omega))]
      omega

theorem parseNatChars_natToString (n : Nat) :
    parseNatChars (natToString n).data = n := by
  simpa [natToString] using parseNatChars_natToDigitsAux (n + 1) n (by omega)

theorem natToString_head_not_dash (n : Nat) (c : Char)
    (hc : c ∈ (natToString n).data) : c ≠ '-' := by
  intro he
  have := mem_natToDigitsAux_toNat (n + 1) n c (by simpa [natToString] using hc)
  rw [he] at this
  revert this
  decide

theorem jsNumberOfString_jsNumToString (i : Int) :
    jsNumberOfString (jsNumToString i) = i := by
  unfold jsNumberOfString
  by_cases h : i < 0
  · have hdata : (jsNumToString i).data = '-' :: (natToString (-i).toNat).data := by
      simp only [jsNumToString, h, if_true]
      rfl
    rw [hdata]
    simp only [if_true, reduceIte, parseNatChars_natToString]
    omega
  · have hdata : (jsNumToString i).data = (natToString i.toNat).data := by
      simp [jsNumToString, h]
    rw [hdata]
    have hparse := parseNatChars_natToString i.toNat
    cases hd : (natToString i.toNat).data with
    | nil =>
      rw [hd] at hparse
      simp only [parseNatChars, List.foldl_nil] at hparse
      simp only [parseNatChars, List.foldl_nil]
      omega
    | cons c rest =>
      have hcd : c ≠ '-' := natToString_head_not_dash i.toNat c (by simp [hd])
      rw [hd] at hparse
      simp only [hcd, if_false, hparse]
      omega

/-! ### ComponentBuilder custom-data codec

Embedding of `encodeCustomDataSync` / `parseCustomDataSync`
(`$types/ComponentBuilder`).  No event emitter is attached (the optional
`eventEmitter` argument is absent), so the event-extension hook contributes
nothing and every item is processed by the built-in default logic for the
built-in scalar types `string` and `number`.  `startsWith` on the
one-character indicator is embedded as a head-character test, and
`substring(1)` as dropping that head. -/

def CUSTOM_DATA_SPLITTER : Char := '䲜'

def CUSTOM_DATA_NUMBER_INDICATOR : Char := '㥻'

inductive CustomDataValue where
  | str (s : String)
  | num (n : Int)
deriving DecidableEq, Repr

def encodeItem : CustomDataValue → String
  | .num n => String.mk [CUSTOM_DATA_NUMBER_INDICATOR] ++ jsNumToString n
  | .str s => s

def encodeCustomDataSync (baseId : String) (data : List CustomDataValue) : String :=
  if data.isEmpty then baseId
  else
    baseId ++ String.mk [CUSTOM_DATA_SPLITTER]
      ++ jsJoin (String.mk [CUSTOM_DATA_SPLITTER]) (data.map encodeItem)

def parseItem (part : String) : CustomDataValue :=
  match part.data with
  | c :: rest =>
    if c = CUSTOM_DATA_NUMBER_INDICATOR then .num (jsNumberOfString (String.mk rest))
    else .str part
  | [] => .str part

def parseCustomDataSync (customId : String) : String × List CustomDataValue :=
  match splitOnChar customId CUSTOM_DATA_SPLITTER with
  | [] => ("", [])
  | [i] => (i, [])
  | i :: p :: rest => (i, (p :: rest).map parseItem)

/-- Characters of an encoded number part are the indicator followed by sign
and digits, none of which is the splitter. -/
theorem splitter_not_mem_encodeItem_num (n : Int) :
    CUSTOM_DATA_SPLITTER ∉ (encodeItem (.num n)).data := by
  intro hmem
  simp only [encodeItem, String.data_append] at hmem
  rcases List.mem_append.mp hmem with hmem | hmem
  · revert hmem
    decide
  · rcases (show (jsNumToString n).data = (jsNumToString n).data from rfl) ▸ hmem with hm
    by_cases hneg : n < 0
    · have hd : (jsNumToString n).data = '-' :: (natToString (-n).toNat).data := by
        simp only [jsNumToString, hneg, if_true]
        rfl
      rw [hd] at hm
      rcases List.mem_cons.mp hm with he | he
      · revert he
        decide
      · have := mem_natToDigitsAux_toNat _ _ _ (by simpa [natToString] using he)
        revert this
        decide
    · have hd : (jsNumToString n).data = (natToString n.toNat).data := by
        simp [jsNumToString, hneg]
      rw [hd] at hm
      have := mem_natToDigitsAux_toNat _ _ _ (by simpa [natToString] using hm)
      revert this
      decide

theorem parseItem_encodeItem (v : CustomDataValue)
    (hstr : ∀ s, v = .str s →
      s.data.head? ≠ some CUSTOM_DATA_NUMBER_INDICATOR) :
    parseItem (encodeItem v) = v := by
  cases v with
  | num n =>
    have hd : (encodeItem (.num n)).data
        = CUSTOM_DATA_NUMBER_INDICATOR :: (jsNumToString n).data := by
      simp only [encodeItem, String.data_append]
      rfl
    unfold parseItem
    rw [hd]
    simp only [if_true, reduceIte]
    congr 1
    rw [show String.mk (jsNumToString n).data = jsNumToString n from rfl]
    exact jsNumberOfString_jsNumToString n
  | str s =>
    simp only [encodeItem]
    unfold parseItem
    split
    · next c rest heq =>
      have hne : c ≠ CUSTOM_DATA_NUMBER_INDICATOR := by
        intro he
        exact hstr s rfl (by simp [heq, he])
      simp [hne]
    · rfl

/-- Splitting the joined encoded parts recovers the parts, provided none of
them contains the splitter. -/
theorem splitChars_jsJoin (parts : List String) (hne : parts ≠ [])
    (hfree : ∀ p ∈ parts, CUSTOM_DATA_SPLITTER ∉ p.data) :
    splitChars CUSTOM_DATA_SPLITTER
        (jsJoin (String.mk [CUSTOM_DATA_SPLITTER]) parts).data
      = parts.map String.data := by
  induction parts with
  | nil => exact absurd rfl hne
  | cons x rest ih =>
    cases rest with
    | nil =>
      simp only [jsJoin, List.map_cons, List.map_nil]
      exact splitChars_of_not_mem _ _ (hfree x (by simp))
    | cons y t =>
      have hx : CUSTOM_DATA_SPLITTER ∉ x.data := hfree x (by simp)
      have hdata : (jsJoin (String.mk [CUSTOM_DATA_SPLITTER]) (x :: y :: t)).data
          = x.data ++ CUSTOM_DATA_SPLITTER
              :: (jsJoin (String.mk [CUSTOM_DATA_SPLITTER]) (y :: t)).data := by
        show (x ++ String.mk [CUSTOM_DATA_SPLITTER]
            ++ jsJoin (String.mk [CUSTOM_DATA_SPLITTER]) (y :: t)).data = _
        simp [String.data_append]
      rw [hdata, splitChars_append_cons _ _ _ hx,
        ih (by simp) (fun p hp => hfree p (by simp [hp]))]
      rfl

theorem parseCustomDataSync_no_sep (s : String)
    (h : CUSTOM_DATA_SPLITTER ∉ s.data) : parseCustomDataSync s = (s, []) := by
  unfold parseCustomDataSync splitOnChar
  rw [splitChars_of_not_mem _ _ h]
  rfl

/-- A custom-data value round-trips through the default codec logic: the
string must not contain the splitter and must not begin with the number
indicator (numbers always round-trip). -/
def strSepFree : CustomDataValue → Prop
  | .str s =>
    CUSTOM_DATA_SPLITTER ∉ s.data ∧ s.data.head? ≠ some CUSTOM_DATA_NUMBER_INDICATOR
  | .num _ => True

instance : DecidablePred strSepFree := fun v =>
  match v with
  | .str _ => inferInstanceAs (Decidable (_ ∧ _))
  | .num _ => inferInstanceAs (Decidable True)

/-- C2 counterexample.  The claim quantifies over every list of built-in
scalar values, but a string value that itself contains the private-use
separator character does not round-trip: encoding `"a䲜b"` produces
`x䲜a䲜b`, which decodes to the two strings `"a"` and `"b"`. -/
theorem claim2_counterexample :
    parseCustomDataSync
        (encodeCustomDataSync "x" [CustomDataValue.str "a䲜b"])
      ≠ ("x", [CustomDataValue.str "a䲜b"]) := by
  decide

/-- C2 (amended): decoding inverts encoding for every id free of the
separator character and every list of built-in scalar values in which each
string value neither contains the separator character nor starts with the
number-indicator character; and decoding an identifier without the
separator character yields that identifier with an empty data list.
(`encodeCustomDataSync` / `parseCustomDataSync`, `$types/ComponentBuilder`,
no event emitter attached.) -/
theorem claim2_amended (baseId : String) (data : List CustomDataValue)
    (hbase : CUSTOM_DATA_SPLITTER ∉ baseId.data)
    (hdata : ∀ v ∈ data, strSepFree v) :
    parseCustomDataSync (encodeCustomDataSync baseId data) = (baseId, data)
      ∧ parseCustomDataSync baseId = (baseId, []) := by
  refine ⟨?_, parseCustomDataSync_no_sep baseId hbase⟩
  cases data with
  | nil =>
    unfold encodeCustomDataSync
    simpa using parseCustomDataSync_no_sep baseId hbase
  | cons d ds =>
    have hfree : ∀ p ∈ (d :: ds).map encodeItem, CUSTOM_DATA_SPLITTER ∉ p.data := by
      intro p hp
      obtain ⟨v, hv, rfl⟩ := List.mem_map.mp hp
      cases v with
      | num n => exact splitter_not_mem_encodeItem_num n
      | str s => exact (hdata _ hv).1
    have hdataeq :
        (baseId ++ String.mk [CUSTOM_DATA_SPLITTER]
            ++ jsJoin (String.mk [CUSTOM_DATA_SPLITTER]) ((d :: ds).map encodeItem)).data
          = baseId.data ++ CUSTOM_DATA_SPLITTER
              :: (jsJoin (String.mk [CUSTOM_DATA_SPLITTER]) ((d :: ds).map encodeItem)).data := by
      simp [String.data_append]
    unfold encodeCustomDataSync
    simp only [List.isEmpty_cons, Bool.false_eq_true, if_false]
    unfold parseCustomDataSync splitOnChar
    rw [hdataeq, splitChars_append_cons _ _ _ hbase,
      splitChars_jsJoin _ (by simp) hfree]
    have hmk : ∀ s : String, String.mk s.data = s := fun s => rfl
    simp only [List.map_cons, List.map_map, Function.comp_def, hmk]
    have hroundtrip : ∀ v ∈ d :: ds, parseItem (encodeItem v) = v := by
      intro v hv
      refine parseItem_encodeItem v ?_
      intro s hs
      subst hs
      exact (hdata _ hv).2
    have : (encodeItem d :: ds.map encodeItem).map parseItem = d :: ds := by
      simp only [List.map_cons, List.map_map, Function.comp_def]
      rw [hroundtrip d (by simp)]
      congr 1
      calc ds.map (fun v => parseItem (encodeItem v)) = ds.map id := by
            refine List.map_congr_left ?_
            intro v hv
            exact hroundtrip v (by simp [hv])
        _ = ds := List.map_id ds
    simpa using this

/-- C2 witness: the spec's own example `id = "x"`, `data = ["a", 3]`
round-trips, and an id without the separator decodes to itself. -/
theorem claim2_amended_witness :
    (parseCustomDataSync
        (encodeCustomDataSync "x" [CustomDataValue.str "a", CustomDataValue.num 3])
      = ("x", [CustomDataValue.str "a", CustomDataValue.num 3]))
      ∧ parseCustomDataSync "x" = ("x", []) :=
  claim2_amended "x" [CustomDataValue.str "a", CustomDataValue.num 3]
    (by decide) (by decide)

/-! ### Locale content trees and the deep merge (`$lib/Locale`)

`PlainLocaleData` (a nested plain string tree) is embedded as `PLD`; a JS
object is a `List (String × PLD)` of fields in insertion order (real JS
objects have unique keys; `wfPLD` states that).  `Locale.deepMerge` iterates
over the incoming objects and, for each entry, either stores a string value
(overwriting any existing value) or recursively merges an object value into
the existing object at that key.  The source's recursive call
`deepMerge(result[key], value)` first replays `result[key]` entry by entry
into a fresh object — the identity on objects with unique keys, which
`result[key]` (an output of this very function) always is — and then merges
`value`'s entries; `deepMergeInto` merges `value`'s entries into it
directly. -/

inductive PLD where
  | str (s : String)
  | obj (fields : List (String × PLD))
deriving Repr

/-- Lookup by key in an object's field list (`result[key]`). -/
def getF : List (String × PLD) → String → Option PLD
  | [], _ => none
  | (k, v) :: rest, key => if k = key then some v else getF rest key

/-- Assignment `result[key] = v`: overwrite in place, or append a new key
(JS objects keep the original key position on overwrite). -/
def setF : List (String × PLD) → String → PLD → List (String × PLD)
  | [], key, v => [(key, v)]
  | (k, w) :: rest, key, v =>
    if k = key then (key, v) :: rest else (k, w) :: setF rest key v

def deepMergeInto (result : List (String × PLD)) :
    List (String × PLD) → List (String × PLD)
  | [] => result
  | (key, PLD.str s) :: rest => deepMergeInto (setF result key (PLD.str s)) rest
  | (key, PLD.obj fields) :: rest =>
    deepMergeInto
      (setF result key (PLD.obj (deepMergeInto
        (match getF result key with
         | some (PLD.obj rf) => rf
         | _ => []) fields)))
      rest
termination_by l => sizeOf l

def deepMerge (objects : List (List (String × PLD))) : List (String × PLD) :=
  objects.foldl deepMergeInto []

/-- One registered content fragment (`Locale.contents` value). -/
structure ContentFragment where
  id : String
  language : String
  data : List (String × PLD)

/-- Embedding of `Locale.mergeContentsForLanguage`: filter the registered
contents by language (in registration order) and deep-merge them.
(`convertToContentValue`, which turns each string leaf into an interpolation
function returning that string, preserves the tree shape and is elided.) -/
def mergeContentsForLanguage (contents : List ContentFragment) (language : String) :
    List (String × PLD) :=
  deepMerge ((contents.filter (fun f => f.language == language)).map (fun f => f.data))

/-- Path lookup in a content tree (`tree.x.y...`), descending only through
object nodes. -/
def getPath (v : PLD) : List String → Option PLD
  | [] => some v
  | key :: rest =>
    match v with
    | .str _ => none
    | .obj fields =>
      match getF fields key with
      | some w => getPath w rest
      | none => none

def nodupKeys : List String → Bool
  | [] => true
  | k :: rest => !(rest.contains k) && nodupKeys rest

/-- Well-formedness of a tree as the image of a JS object: at every level
the keys are distinct. -/
def wfPLD : PLD → Bool
  | .str _ => true
  | .obj fields =>
    nodupKeys (fields.map Prod.fst) && wfFields fields
where
  wfFields : List (String × PLD) → Bool
    | [] => true
    | (_, v) :: rest => wfPLD v && wfFields rest

theorem getF_setF_self (l : List (String × PLD)) (k : String) (v : PLD) :
    getF (setF l k v) k = some v := by
  induction l with
  | nil => simp [setF, getF]
  | cons hd tl ih =>
    obtain ⟨k0, w0⟩ := hd
    by_cases h : k0 = k
    · simp [setF, h, getF]
    · simp [setF, h, getF, ih]

theorem getF_setF_ne (l : List (String × PLD)) (k k2 : String) (v : PLD)
    (h : k2 ≠ k) : getF (setF l k2 v) k = getF l k := by
  induction l with
  | nil => simp [setF, getF, h]
  | cons hd tl ih =>
    obtain ⟨k0, w0⟩ := hd
    by_cases h0 : k0 = k2
    · subst h0
      simp [setF, getF, h]
    · simp [setF, h0, getF, ih]

theorem getF_deepMergeInto_not_mem (r B : List (String × PLD)) (k : String)
    (h : k ∉ B.map Prod.fst) : getF (deepMergeInto r B) k = getF r k := by
  induction r, B using deepMergeInto.induct with
  | case1 r => simp [deepMergeInto]
  | case2 r key t rest ih =>
    simp only [List.map_cons, List.mem_cons, not_or] at h
    rw [deepMergeInto, ih h.2, getF_setF_ne _ _ _ _ (Ne.symm h.1)]
  | case3 r key fields rest ih1 ih2 =>
    simp only [List.map_cons, List.mem_cons, not_or] at h
    rw [deepMergeInto, ih2 h.2, getF_setF_ne _ _ _ _ (Ne.symm h.1)]

theorem wfPLD_obj_cons (k : String) (v : PLD) (rest : List (String × PLD))
    (h : wfPLD (.obj ((k, v) :: rest)) = true) :
    wfPLD v = true ∧ wfPLD (.obj rest) = true ∧ k ∉ rest.map Prod.fst := by
  simp only [wfPLD, List.map_cons, nodupKeys, wfPLD.wfFields, Bool.and_eq_true,
    Bool.not_eq_true'] at h ⊢
  refine ⟨h.2.1, ⟨h.1.2, h.2.2⟩, ?_⟩
  intro hmem
  have hcont : (rest.map Prod.fst).contains k = true :=
    List.elem_eq_true_of_mem hmem
  rw [h.1.1] at hcont
  cases hcont

/-- Every string leaf of the later object survives a deep merge into any
accumulated result, whatever that result holds at the conflicting paths. -/
theorem getPath_deepMergeInto_str :
    ∀ (result B : List (String × PLD)) (p : List String) (s : String),
      wfPLD (.obj B) = true →
      getPath (.obj B) p = some (.str s) →
      getPath (.obj (deepMergeInto result B)) p = some (.str s) := by
  intro result B
  induction result, B using deepMergeInto.induct with
  | case1 r =>
    intro p s hwf h
    cases p with
    | nil => simp [getPath] at h
    | cons k0 p2 => simp [getPath, getF] at h
  | case2 r key t rest ih =>
    intro p s hwf h
    obtain ⟨-, hwfrest, hkey⟩ := wfPLD_obj_cons key (.str t) rest hwf
    cases p with
    | nil => simp [getPath] at h
    | cons k0 p2 =>
      by_cases hk : key = k0
      · subst hk
        cases p2 with
        | nil =>
          have ht : t = s := by simpa [getPath, getF] using h
          rw [deepMergeInto]
          simp only [getPath]
          rw [getF_deepMergeInto_not_mem _ _ _ hkey, getF_setF_self]
          simp [getPath, ht]
        | cons k3 p3 => exact absurd h (by simp [getPath, getF])
      · have h2 : getPath (.obj rest) (k0 :: p2) = some (.str s) := by
          simpa [getPath, getF, hk] using h
        rw [deepMergeInto]
        exact ih (k0 :: p2) s hwfrest h2
  | case3 r key fields rest ih1 ih2 =>
    intro p s hwf h
    obtain ⟨hwfv, hwfrest, hkey⟩ := wfPLD_obj_cons key (.obj fields) rest hwf
    cases p with
    | nil => simp [getPath] at h
    | cons k0 p2 =>
      by_cases hk : key = k0
      · subst hk
        have h2 : getPath (.obj fields) p2 = some (.str s) := by
          simpa [getPath, getF] using h
        rw [deepMergeInto]
        simp only [getPath]
        rw [getF_deepMergeInto_not_mem _ _ _ hkey, getF_setF_self]
        exact ih1 p2 s hwfv h2
      · have h2 : getPath (.obj rest) (k0 :: p2) = some (.str s) := by
          simpa [getPath, getF, hk] using h
        rw [deepMergeInto]
        exact ih2 (k0 :: p2) s hwfrest h2

/-- C1 counterexample.  With fragment A registered before fragment B for the
same language, `mergeContentsForLanguage` does NOT keep the first-registered
value at the conflicting path `x.y`: `deepMerge` assigns string values
unconditionally, so B's `"2"` overwrites A's `"1"` and the result differs
from the claimed `x.y = "1", x.z = "3"` tree. -/
theorem claim1_counterexample :
    mergeContentsForLanguage
        [⟨"A", "en", [("x", PLD.obj [("y", PLD.str "1")])]⟩,
         ⟨"B", "en", [("x", PLD.obj [("y", PLD.str "2"), ("z", PLD.str "3")])]⟩]
        "en"
      ≠ [("x", PLD.obj [("y", PLD.str "1"), ("z", PLD.str "3")])] := by
  simp [mergeContentsForLanguage, deepMerge, deepMergeInto, setF, getF]

/-- C1 (amended): for every language and pair of content fragments
registered in one LocaleStore for that language, the merged content tree
takes the LAST-registered fragment's value at every string-leaf path that
fragment defines (later fragments overwrite conflicting leaves and add keys
absent so far): with fragment A `x.y = "1"` registered before fragment B
`x.y = "2", x.z = "3"`, the merged result has `x.y = "2"` and `x.z = "3"`. -/
theorem claim1_amended :
    (∀ (idA idB lang : String) (A B : List (String × PLD))
        (p : List String) (s : String),
        wfPLD (.obj B) = true →
        getPath (.obj B) p = some (.str s) →
        getPath (.obj (mergeContentsForLanguage
            [⟨idA, lang, A⟩, ⟨idB, lang, B⟩] lang)) p = some (.str s))
      ∧ mergeContentsForLanguage
          [⟨"A", "en", [("x", PLD.obj [("y", PLD.str "1")])]⟩,
           ⟨"B", "en", [("x", PLD.obj [("y", PLD.str "2"), ("z", PLD.str "3")])]⟩]
          "en"
        = [("x", PLD.obj [("y", PLD.str "2"), ("z", PLD.str "3")])] := by
  constructor
  · intro idA idB lang A B p s hwf h
    have hme : mergeContentsForLanguage [⟨idA, lang, A⟩, ⟨idB, lang, B⟩] lang
        = deepMergeInto (deepMergeInto [] A) B := by
      simp [mergeContentsForLanguage, deepMerge]
    rw [hme]
    exact getPath_deepMergeInto_str _ _ p s hwf h
  · simp [mergeContentsForLanguage, deepMerge, deepMergeInto, setF, getF]

/-- C1 witness: the amended claim at the spec's own example, looking up the
conflicting path `x.y` in the merged tree. -/
theorem claim1_amended_witness :
    getPath (.obj (mergeContentsForLanguage
        [⟨"A", "en", [("x", PLD.obj [("y", PLD.str "1")])]⟩,
         ⟨"B", "en", [("x", PLD.obj [("y", PLD.str "2"), ("z", PLD.str "3")])]⟩]
        "en")) ["x", "y"]
      = some (PLD.str "2") :=
  claim1_amended.1 "A" "B" "en" _ _ ["x", "y"] "2"
    (by simp [wfPLD, nodupKeys, wfPLD.wfFields])
    (by simp [getPath, getF])

/-! ### Root-level locale merge (`Tessen.refresh` / `Tescord.refresh`)

The root gathers every cached locale's per-language content tree and merges
across containers with the external helper `defaultify`, then back-fills
every non-default language from the configured default language's tree. -/

/-- Entries of `defaults` whose key is absent from `target`. -/
def missingFrom (tf df : List (String × PLD)) : List (String × PLD) :=
  df.filter (fun kv => (getF tf kv.1).isNone)

mutual

/-- Modelled from the spec: `defaultify(target, defaults, true)` comes from
the external `stuffs` npm package and is not part of this repository's
sources.  Per the spec it deep-fills `target` with `defaults`: existing keys
are never overwritten, both-object keys merge recursively, and keys missing
from `target` are copied from `defaults`. -/
def defaultify : PLD → PLD → PLD
  | PLD.obj tf, PLD.obj df => PLD.obj (defaultifyKeep tf df ++ missingFrom tf df)
  | t, _ => t

def defaultifyKeep : List (String × PLD) → List (String × PLD) → List (String × PLD)
  | [], _ => []
  | (k, v) :: rest, df =>
    (match getF df k with
     | some dv => (k, defaultify v dv)
     | none => (k, v)) :: defaultifyKeep rest df

end

theorem getF_append_pld (l1 l2 : List (String × PLD)) (k : String) :
    getF (l1 ++ l2) k =
      match getF l1 k with
      | some v => some v
      | none => getF l2 k := by
  induction l1 with
  | nil => simp [getF]
  | cons hd tl ih =>
    obtain ⟨k0, w0⟩ := hd
    by_cases h : k0 = k
    · simp [getF, h]
    · simp [getF, h, ih]

theorem getF_defaultifyKeep (tf df : List (String × PLD)) (k : String) :
    getF (defaultifyKeep tf df) k =
      match getF tf k with
      | some v =>
        some (match getF df k with
              | some dv => defaultify v dv
              | none => v)
      | none => none := by
  induction tf with
  | nil => simp [defaultifyKeep, getF]
  | cons hd tl ih =>
    obtain ⟨k0, v0⟩ := hd
    rw [defaultifyKeep]
    cases hdf : getF df k0 with
    | some dv =>
      by_cases h : k0 = k
      · subst h
        simp [getF, hdf]
      · simp [getF, h, ih]
    | none =>
      by_cases h : k0 = k
      · subst h
        simp [getF, hdf]
      · simp [getF, h, ih]

theorem getF_missingFrom (tf df : List (String × PLD)) (k : String) :
    getF (missingFrom tf df) k =
      if (getF tf k).isNone then getF df k else none := by
  induction df with
  | nil => simp [missingFrom, getF]
  | cons hd tl ih =>
    obtain ⟨k0, v0⟩ := hd
    simp only [missingFrom, List.filter_cons] at ih ⊢
    by_cases hcond : (getF tf k0).isNone
    · by_cases h : k0 = k
      · subst h
        simp [hcond, getF]
      · simp [hcond, getF, h, ih]
    · simp only [Bool.not_eq_true] at hcond
      by_cases h : k0 = k
      · subst h
        simp [hcond, ih]
      · simp [hcond, getF, h, ih]

/-- Lookup in a defaultified object: target keys win (recursively merged
when the defaults also hold the key), missing keys come from defaults. -/
theorem getF_defaultify_obj (tf df : List (String × PLD)) (k : String) :
    getF (defaultifyKeep tf df ++ missingFrom tf df) k =
      match getF tf k with
      | some v =>
        some (match getF df k with
              | some dv => defaultify v dv
              | none => v)
      | none => getF df k := by
  rw [getF_append_pld, getF_defaultifyKeep, getF_missingFrom]
  cases htf : getF tf k with
  | some v => simp
  | none => simp

/-- A string node of the target strictly above the end of the path blocks
back-filling; this detects such an obstruction. -/
def strObstructs (t : PLD) : List String → Bool
  | [] => false
  | key :: rest =>
    match t with
    | .str _ => true
    | .obj fields =>
      match getF fields key with
      | some w => strObstructs w rest
      | none => false

/-- Back-fill: at every path absent from the target tree and not obstructed
by a string node, the defaultified tree resolves to the defaults' value. -/
theorem getPath_defaultify_of_missing (p : List String) :
    ∀ (t d : PLD), getPath t p = none → strObstructs t p = false →
      getPath (defaultify t d) p = getPath d p := by
  induction p with
  | nil =>
    intro t d h _
    simp [getPath] at h
  | cons key rest ih =>
    intro t d h hobs
    cases t with
    | str s => simp [strObstructs] at hobs
    | obj tf =>
      cases d with
      | str s2 =>
        have hds : defaultify (.obj tf) (.str s2) = .obj tf := by
          simp [defaultify]
        rw [hds, h]
        simp [getPath]
      | obj df =>
        have hde : defaultify (.obj tf) (.obj df)
            = .obj (defaultifyKeep tf df ++ missingFrom tf df) := by
          simp [defaultify]
        rw [hde]
        simp only [getPath] at h ⊢
        rw [getF_defaultify_obj]
        cases htf : getF tf key with
        | none => simp [htf]
        | some v =>
          simp only [htf] at h ⊢
          have hobsv : strObstructs v rest = false := by
            simpa [strObstructs, htf] using hobs
          cases hdf : getF df key with
          | none =>
            simp only [hdf]
            exact h
          | some dv =>
            simp only [hdf]
            exact ih v dv h hobsv

/-- `map.get(lang) || {}` — a language's tree in a language-keyed map, with
the empty-object fallback used by `refresh`. -/
def getLangD (m : List (String × PLD)) (lang : String) : PLD :=
  match getF m lang with
  | some v => v
  | none => PLD.obj []

/-- Embedding of the first pass of `Tessen.refresh` (Tessen.ts:82-91): the
cached locales' per-language content trees, flattened in cache iteration
order, are folded into the root `locales.content` map with
`defaultify(contentValue, currentContentLocale ?? {}, true)`. -/
def collectContentLocales (localeContents : List (String × PLD)) : List (String × PLD) :=
  localeContents.foldl
    (fun acc lc => setF acc lc.1 (defaultify lc.2 (getLangD acc lc.1))) []

/-- Embedding of the locale passes of `Tessen.refresh`: after the first
pass, every non-default language is defaultified with the default
language's tree (Tessen.ts:104-113). -/
def refreshContentLocales (localeContents : List (String × PLD))
    (defaultLanguage : String) : List (String × PLD) :=
  let firstPass := collectContentLocales localeContents
  let defaultContentLocale := getLangD firstPass defaultLanguage
  firstPass.map (fun lc =>
    (lc.1, if lc.1 = defaultLanguage then lc.2 else defaultify lc.2 defaultContentLocale))

theorem getF_refresh_map (m : List (String × PLD)) (dl : String) (d : PLD) (k : String) :
    getF (m.map (fun lc => (lc.1, if lc.1 = dl then lc.2 else defaultify lc.2 d))) k
      = match getF m k with
        | some v => some (if k = dl then v else defaultify v d)
        | none => none := by
  induction m with
  | nil => simp [getF]
  | cons hd tl ih =>
    obtain ⟨k0, v0⟩ := hd
    by_cases hk : k0 = k
    · subst hk
      simp [getF]
    · simp [getF, hk, ih]

/-- C7 counterexample.  The claim quantifies over every key missing
relative to the default language's tree, but a string leaf in the
non-default tree above a missing path is never overwritten by the
back-fill (the merge rule keeps existing keys): with default language
`en` holding `a.b = "B"` and language `tr` holding the string leaf
`a = "X"`, the path `a.b` is missing from tr's tree, yet after refresh
tr's lookup of `a.b` is still undefined while en's is `"B"` — the claimed
back-fill does not happen there. -/
theorem claim7_counterexample :
    (getF (collectContentLocales
        [("en", PLD.obj [("a", PLD.obj [("b", PLD.str "B")])]),
         ("tr", PLD.obj [("a", PLD.str "X")])])
        "tr" = some (PLD.obj [("a", PLD.str "X")]))
      ∧ (getPath (PLD.obj [("a", PLD.str "X")]) ["a", "b"] = none)
      ∧ (getPath (getLangD (refreshContentLocales
          [("en", PLD.obj [("a", PLD.obj [("b", PLD.str "B")])]),
           ("tr", PLD.obj [("a", PLD.str "X")])] "en") "en") ["a", "b"]
          = some (PLD.str "B"))
      ∧ (getPath (getLangD (refreshContentLocales
          [("en", PLD.obj [("a", PLD.obj [("b", PLD.str "B")])]),
           ("tr", PLD.obj [("a", PLD.str "X")])] "en") "tr") ["a", "b"]
          ≠ getPath (getLangD (refreshContentLocales
          [("en", PLD.obj [("a", PLD.obj [("b", PLD.str "B")])]),
           ("tr", PLD.obj [("a", PLD.str "X")])] "en") "en") ["a", "b"]) := by
  refine ⟨?_, ?_, ?_, ?_⟩ <;>
    simp [collectContentLocales, refreshContentLocales, getLangD, getF, setF,
      defaultify, defaultifyKeep, missingFrom, getPath]

/-- C7 (amended): after refresh with default language `dl`, a non-default
language's tree is back-filled with every key path missing relative to the
default language's tree that is not obstructed by a string leaf above it in
the non-default tree: such a path resolves to the default language's value
— the final per-language lookup for `lang` and for `dl` agree on it. -/
theorem claim7 (localeContents : List (String × PLD)) (dl lang : String)
    (p : List String) (t : PLD)
    (hne : lang ≠ dl)
    (ht : getF (collectContentLocales localeContents) lang = some t)
    (hmiss : getPath t p = none)
    (hobs : strObstructs t p = false) :
    getPath (getLangD (refreshContentLocales localeContents dl) lang) p
      = getPath (getLangD (refreshContentLocales localeContents dl) dl) p := by
  unfold refreshContentLocales
  have hlang :
      getLangD ((collectContentLocales localeContents).map
          (fun lc => (lc.1, if lc.1 = dl then lc.2
            else defaultify lc.2 (getLangD (collectContentLocales localeContents) dl)))) lang
        = defaultify t (getLangD (collectContentLocales localeContents) dl) := by
    unfold getLangD
    rw [getF_refresh_map, ht]
    simp [hne]
  have hdl :
      getLangD ((collectContentLocales localeContents).map
          (fun lc => (lc.1, if lc.1 = dl then lc.2
            else defaultify lc.2 (getLangD (collectContentLocales localeContents) dl)))) dl
        = getLangD (collectContentLocales localeContents) dl := by
    unfold getLangD
    rw [getF_refresh_map]
    cases hd : getF (collectContentLocales localeContents) dl <;> simp
  rw [hlang, hdl]
  exact getPath_defaultify_of_missing p t _ hmiss hobs

/-- C7 witness: content map with `en.a.b = "B"` and `tr.a.c = "C"`; after
refresh with default `"en"`, the `tr` lookup of `a.b` equals the `en`
lookup. -/
theorem claim7_witness :
    getPath (getLangD (refreshContentLocales
        [("en", PLD.obj [("a", PLD.obj [("b", PLD.str "B")])]),
         ("tr", PLD.obj [("a", PLD.obj [("c", PLD.str "C")])])] "en") "tr")
        ["a", "b"]
      = getPath (getLangD (refreshContentLocales
        [("en", PLD.obj [("a", PLD.obj [("b", PLD.str "B")])]),
         ("tr", PLD.obj [("a", PLD.obj [("c", PLD.str "C")])])] "en") "en")
        ["a", "b"] :=
  claim7 _ "en" "tr" ["a", "b"]
    (PLD.obj [("a", PLD.obj [("c", PLD.str "C")])])
    (by decide)
    (by simp [collectContentLocales, getLangD, getF, setF, defaultify,
      defaultifyKeep, missingFrom])
    (by simp [getPath, getF])
    (by simp [strObstructs, getF])

/-! ### ResultEventEmitter (`$types/ResultEventEmitter`)

Listeners are stored per event in insertion order; the whole emitter is one
insertion-ordered list of (event, entry) pairs, so `entriesFor` (the
embedding of `getListenerEntries`) recovers each event's listeners in
registration order.  A listener either throws (`Except.error`) or returns a
value, `none` standing for `undefined`.  Each entry carries a unique
listener id `lid` standing for the JS object identity used by
`removeOnceListeners`; invocation logs list the `lid`s of the listeners
that actually ran. -/

structure Entry (A V E : Type) where
  lid : String
  once : Bool
  listener : A → Except E (Option V)

/-- A JS value pushed into a results array: either a returned value
(possibly `undefined`) or a caught error pushed as a value. -/
inductive JsVal (V E : Type) where
  | value (v : Option V)
  | err (e : E)
deriving DecidableEq, Repr

abbrev Emitter (A V E : Type) : Type := List (String × Entry A V E)

namespace Emitter

variable {A V E : Type}

/-- `getListenerEntries(event)`: the event's listeners in registration
order. -/
def entriesFor (em : Emitter A V E) (event : String) : List (Entry A V E) :=
  (em.filter (fun p => p.1 == event)).map Prod.snd

/-- Run one listener, capturing a thrown error as a value (the `try/catch`
of `emit`). -/
def runEntry (en : Entry A V E) (a : A) : JsVal V E :=
  match en.listener a with
  | .ok v => .value v
  | .error e => .err e

/-- `removeOnceListeners(event, listenersToRemove)`: delete the given
entries (identified by `lid`) from the event's listener set. -/
def removeByLids (em : Emitter A V E) (event : String) (lids : List String) :
    Emitter A V E :=
  em.filter (fun p => !(p.1 == event && lids.contains p.2.lid))

/-- `ResultEventEmitter.emit`: run every listener in registration order,
collect every result (errors captured as values), then remove the one-shot
listeners that fired. -/
def emit (em : Emitter A V E) (event : String) (a : A) :
    List (JsVal V E) × Emitter A V E :=
  let entries := entriesFor em event
  (entries.map (fun en => runEntry en a),
   removeByLids em event ((entries.filter (fun en => en.once)).map (fun en => en.lid)))

/-- `ResultEventEmitter.emitParallel`: all listeners run, `Promise.all`
keeps results in registration order, then the fired one-shot listeners are
removed; observationally identical to `emit` in the sequential model. -/
def emitParallel (em : Emitter A V E) (event : String) (a : A) :
    List (JsVal V E) × Emitter A V E :=
  let entries := entriesFor em event
  (entries.map (fun en => runEntry en a),
   removeByLids em event ((entries.filter (fun en => en.once)).map (fun en => en.lid)))

/-- `ResultEventEmitter.emitAsync`, iterated to completion (as its callers
do): listeners run strictly sequentially, results are yielded in order, and
the fired one-shot listeners are removed after the loop. -/
def emitAsyncAll (em : Emitter A V E) (event : String) (a : A) :
    List (JsVal V E) × Emitter A V E :=
  let entries := entriesFor em event
  (entries.map (fun en => runEntry en a),
   removeByLids em event ((entries.filter (fun en => en.once)).map (fun en => en.lid)))

/-- Scan loop of `emitUntilResult`: returns the first defined (non-
`undefined`) result, the `lid`s of the listeners invoked (the scanned
prefix, producer included), and the `lid`s of the scanned one-shot
listeners collected for removal.  Thrown errors are swallowed and the scan
continues.  (The sync variant also skips Promise-valued results, which the
pure model has no counterpart for.) -/
def emitUntilResultAux (a : A) : List (Entry A V E) → Option V × List String × List String
  | [] => (none, [], [])
  | en :: rest =>
    match en.listener a with
    | .error _ =>
      let r := emitUntilResultAux a rest
      (r.1, en.lid :: r.2.1, (if en.once then [en.lid] else []) ++ r.2.2)
    | .ok none =>
      let r := emitUntilResultAux a rest
      (r.1, en.lid :: r.2.1, (if en.once then [en.lid] else []) ++ r.2.2)
    | .ok (some v) => (some v, [en.lid], if en.once then [en.lid] else [])

/-- `ResultEventEmitter.emitUntilResult` (sync): scan, then remove the
collected one-shot listeners (also on early return). -/
def emitUntilResult (em : Emitter A V E) (event : String) (a : A) :
    Option V × List String × Emitter A V E :=
  let r := emitUntilResultAux a (entriesFor em event)
  (r.1, r.2.1, removeByLids em event r.2.2)

/-- `ResultEventEmitter.emitUntilResultAsync`: the awaited variant; same
control flow in the sequential model. -/
def emitUntilResultAsync (em : Emitter A V E) (event : String) (a : A) :
    Option V × List String × Emitter A V E :=
  let r := emitUntilResultAux a (entriesFor em event)
  (r.1, r.2.1, removeByLids em event r.2.2)

end Emitter

/-! ### Pack event propagation (`$lib/Pack`)

A Pack owns its `ResultEventEmitter` (`_events`) and an insertion-ordered
collection of sub-packs; only the pieces event propagation touches are
embedded. -/

inductive PackT (A V E : Type) where
  | mk (id : String) (em : Emitter A V E) (subs : List (PackT A V E))

mutual

/-- `Pack.emitEvent`: collect this pack's own emitter results, then
recursively every sub-pack's results, in registration order, into one flat
list; emitters are updated in place (one-shot removal). -/
def emitEvent {A V E : Type} : PackT A V E → String → A → List (JsVal V E) × PackT A V E
  | .mk i em subs, event, a =>
    let own := Emitter.emit em event a
    let subr := emitEventList subs event a
    (own.1 ++ subr.1, .mk i own.2 subr.2)

def emitEventList {A V E : Type} :
    List (PackT A V E) → String → A → List (JsVal V E) × List (PackT A V E)
  | [], _, _ => ([], [])
  | p :: rest, event, a =>
    let pr := emitEvent p event a
    let rr := emitEventList rest event a
    (pr.1 ++ rr.1, pr.2 :: rr.2)

end

mutual

/-- `Pack.emitEventUntilResultSync`: try this pack's own
`emitUntilResult`; if it produced a defined result return it without
touching any sub-pack, otherwise scan the sub-packs in registration order
and stop at the first defined result.  Also returns the invocation log. -/
def emitEventUntilResultSync {A V E : Type} :
    PackT A V E → String → A → Option V × List String × PackT A V E
  | .mk i em subs, event, a =>
    let own := Emitter.emitUntilResult em event a
    match own.1 with
    | some v => (some v, own.2.1, .mk i own.2.2 subs)
    | none =>
      let subr := emitEventUntilResultSyncList subs event a
      (subr.1, own.2.1 ++ subr.2.1, .mk i own.2.2 subr.2.2)

def emitEventUntilResultSyncList {A V E : Type} :
    List (PackT A V E) → String → A → Option V × List String × List (PackT A V E)
  | [], _, _ => (none, [], [])
  | p :: rest, event, a =>
    let pr := emitEventUntilResultSync p event a
    match pr.1 with
    | some v => (some v, pr.2.1, pr.2.2 :: rest)
    | none =>
      let rr := emitEventUntilResultSyncList rest event a
      (rr.1, pr.2.1 ++ rr.2.1, pr.2.2 :: rr.2.2)

end

mutual

/-- Specification-side view: all listeners for the event in the tree, in
depth-first pre-order (each container's own listeners before its
children's). -/
def preorderEntries {A V E : Type} : PackT A V E → String → List (Entry A V E)
  | .mk _ em subs, event => Emitter.entriesFor em event ++ preorderEntriesList subs event

def preorderEntriesList {A V E : Type} : List (PackT A V E) → String → List (Entry A V E)
  | [], _ => []
  | p :: rest, event => preorderEntries p event ++ preorderEntriesList rest event

end

/-- Specification-side scan, following the spec's words: invoke listeners
in order, stop at the first defined result, swallow exceptions; returns the
first defined result and the invoked listeners. -/
def firstDefinedScan {A V E : Type} (a : A) :
    List (Entry A V E) → Option V × List String
  | [] => (none, [])
  | en :: rest =>
    match en.listener a with
    | .ok (some v) => (some v, [en.lid])
    | _ =>
      let r := firstDefinedScan a rest
      (r.1, en.lid :: r.2)

theorem emitUntilResultAux_eq_scan {A V E : Type} (a : A) (es : List (Entry A V E)) :
    (Emitter.emitUntilResultAux a es).1 = (firstDefinedScan a es).1
      ∧ (Emitter.emitUntilResultAux a es).2.1 = (firstDefinedScan a es).2 := by
  induction es with
  | nil => simp [Emitter.emitUntilResultAux, firstDefinedScan]
  | cons en rest ih =>
    cases hl : en.listener a with
    | error e =>
      simp [Emitter.emitUntilResultAux, firstDefinedScan, hl, ih.1, ih.2]
    | ok v =>
      cases v with
      | none => simp [Emitter.emitUntilResultAux, firstDefinedScan, hl, ih.1, ih.2]
      | some w => simp [Emitter.emitUntilResultAux, firstDefinedScan, hl]

theorem firstDefinedScan_append {A V E : Type} (a : A) (l1 l2 : List (Entry A V E)) :
    firstDefinedScan a (l1 ++ l2)
      = match (firstDefinedScan a l1).1 with
        | some v => (some v, (firstDefinedScan a l1).2)
        | none =>
          ((firstDefinedScan a l2).1,
            (firstDefinedScan a l1).2 ++ (firstDefinedScan a l2).2) := by
  induction l1 with
  | nil => simp [firstDefinedScan]
  | cons en rest ih =>
    cases hl : en.listener a with
    | error e =>
      cases hr : (firstDefinedScan a rest).1 <;>
        simp [firstDefinedScan, hl, ih, hr]
    | ok v =>
      cases v with
      | none =>
        cases hr : (firstDefinedScan a rest).1 <;>
          simp [firstDefinedScan, hl, ih, hr]
      | some w => simp [firstDefinedScan, hl]

mutual

theorem untilSync_spec {A V E : Type} (p : PackT A V E) (event : String) (a : A) :
    (emitEventUntilResultSync p event a).1
        = (firstDefinedScan a (preorderEntries p event)).1
      ∧ (emitEventUntilResultSync p event a).2.1
        = (firstDefinedScan a (preorderEntries p event)).2 := by
  cases p with
  | mk i em subs =>
    have hlist := untilSyncList_spec subs event a
    have haux := emitUntilResultAux_eq_scan a (Emitter.entriesFor em event)
    rw [emitEventUntilResultSync, preorderEntries, firstDefinedScan_append]
    simp only [Emitter.emitUntilResult]
    rw [haux.1, haux.2]
    cases hown : (firstDefinedScan a (Emitter.entriesFor em event)).1 with
    | some v => simp [preorderEntriesList]
    | none => simp [hlist.1, hlist.2]

theorem untilSyncList_spec {A V E : Type} (ps : List (PackT A V E)) (event : String) (a : A) :
    (emitEventUntilResultSyncList ps event a).1
        = (firstDefinedScan a (preorderEntriesList ps event)).1
      ∧ (emitEventUntilResultSyncList ps event a).2.1
        = (firstDefinedScan a (preorderEntriesList ps event)).2 := by
  cases ps with
  | nil => simp [emitEventUntilResultSyncList, preorderEntriesList, firstDefinedScan]
  | cons p rest =>
    have hp := untilSync_spec p event a
    have hr := untilSyncList_spec rest event a
    rw [emitEventUntilResultSyncList, preorderEntriesList, firstDefinedScan_append]
    cases hpr : (emitEventUntilResultSync p event a).1 with
    | some v =>
      rw [hpr] at hp
      simp [← hp.1, ← hp.2]
    | none =>
      rw [hpr] at hp
      simp [← hp.1, ← hp.2, hr.1, hr.2]

end

/-- C3: on a two-level container tree (root with one child) where each
level has exactly one listener registered for the emitted event,
`emitEvent` returns exactly two results, the parent's listener result
before the child's; in general each container contributes its own
emitter's results before its sub-packs' results, sub-packs in registration
order (depth-first flat order). -/
theorem claim3 :
    (∀ {A V E : Type} (i j : String) (em em2 : Emitter A V E)
       (event : String) (a : A) (e1 e2 : Entry A V E),
       Emitter.entriesFor em event = [e1] →
       Emitter.entriesFor em2 event = [e2] →
       (emitEvent (PackT.mk i em [PackT.mk j em2 []]) event a).1
         = [Emitter.runEntry e1 a, Emitter.runEntry e2 a])
      ∧ (∀ {A V E : Type} (i : String) (em : Emitter A V E)
           (subs : List (PackT A V E)) (event : String) (a : A),
           (emitEvent (PackT.mk i em subs) event a).1
             = (Emitter.emit em event a).1 ++ (emitEventList subs event a).1)
      ∧ (∀ {A V E : Type} (p : PackT A V E) (ps : List (PackT A V E))
           (event : String) (a : A),
           (emitEventList (p :: ps) event a).1
             = (emitEvent p event a).1 ++ (emitEventList ps event a).1) := by
  refine ⟨?_, ?_, ?_⟩
  · intro A V E i j em em2 event a e1 e2 h1 h2
    rw [emitEvent, emitEventList, emitEvent, emitEventList]
    simp [Emitter.emit, h1, h2]
  · intro A V E i em subs event a
    rw [emitEvent]
  · intro A V E p ps event a
    rw [emitEventList]

/-- C3 witness: one listener per level returning 1 and 2; the flat result
list is exactly those two values, parent first. -/
theorem claim3_witness :
    (emitEvent
        (PackT.mk "root"
          [("e", ⟨"L1", false, fun (_ : Unit) => Except.ok (some 1)⟩)]
          [PackT.mk "child"
            [("e", ⟨"L2", false, fun (_ : Unit) => Except.ok (some 2)⟩)]
            []])
        "e" ()).1
      = ([JsVal.value (some 1), JsVal.value (some 2)] : List (JsVal Nat Nat)) :=
  claim3.1 "root" "child" _ _ "e" ()
    ⟨"L1", false, fun _ => Except.ok (some 1)⟩
    ⟨"L2", false, fun _ => Except.ok (some 2)⟩
    rfl rfl

/-- C4: `emitEventUntilResultSync` returns the first defined result of the
depth-first pre-order scan of the tree's listeners (self before children,
children in registration order), and its invocation log is exactly the
scanned prefix up to and including the producing listener — so no listener
of any later container runs once an earlier container produced a defined
result. -/
theorem claim4 {A V E : Type} (p : PackT A V E) (event : String) (a : A) :
    (emitEventUntilResultSync p event a).1
        = (firstDefinedScan a (preorderEntries p event)).1
      ∧ (emitEventUntilResultSync p event a).2.1
        = (firstDefinedScan a (preorderEntries p event)).2 :=
  untilSync_spec p event a

/-! ### Once-listener removal (C9 support) -/

def lidsOf {A V E : Type} (em : Emitter A V E) : List String :=
  em.map (fun p => p.2.lid)

theorem contains_iff_mem_str (l : List String) (x : String) :
    l.contains x = true ↔ x ∈ l :=
  List.elem_iff

theorem mem_entriesFor_iff {A V E : Type} (em : Emitter A V E) (ev : String)
    (en : Entry A V E) :
    en ∈ Emitter.entriesFor em ev ↔ ∃ p, p ∈ em ∧ p.1 = ev ∧ p.2 = en := by
  unfold Emitter.entriesFor
  simp only [List.mem_map, List.mem_filter, beq_iff_eq]
  constructor
  · rintro ⟨p, ⟨hp, hev⟩, hsnd⟩
    exact ⟨p, hp, hev, hsnd⟩
  · rintro ⟨p, hp, hev, hsnd⟩
    exact ⟨p, ⟨hp, hev⟩, hsnd⟩

theorem nodup_entriesFor_lids {A V E : Type} (em : Emitter A V E) (ev : String)
    (hn : (lidsOf em).Nodup) :
    ((Emitter.entriesFor em ev).map (fun en => en.lid)).Nodup := by
  unfold Emitter.entriesFor
  rw [List.map_map]
  have hsub : List.Sublist
      ((em.filter (fun p => p.1 == ev)).map (fun p => p.2.lid))
      (em.map (fun p => p.2.lid)) :=
    (List.filter_sublist em).map _
  exact hn.sublist hsub

/-- With globally distinct listener ids, removing the fired once-listeners
after a full emission removes exactly the event's once-listeners. -/
theorem removeByLids_once_all {A V E : Type} (em : Emitter A V E) (ev : String)
    (hn : (lidsOf em).Nodup) :
    Emitter.removeByLids em ev
        (((Emitter.entriesFor em ev).filter (fun en => en.once)).map (fun en => en.lid))
      = em.filter (fun p => !(p.1 == ev && p.2.once)) := by
  unfold Emitter.removeByLids
  refine List.filter_congr ?_
  intro p hp
  cases hev : (p.1 == ev) with
  | false => simp
  | true =>
    simp only [Bool.true_and]
    rw [beq_iff_eq] at hev
    congr 1
    cases ho : p.2.once with
    | true =>
      refine (contains_iff_mem_str _ _).mpr ?_
      simp only [List.mem_map, List.mem_filter]
      exact ⟨p.2, ⟨(mem_entriesFor_iff em ev p.2).mpr ⟨p, hp, hev, rfl⟩, ho⟩, rfl⟩
    | false =>
      by_contra hc
      rw [Bool.not_eq_false] at hc
      obtain ⟨en, hen, hlid⟩ := by
        simpa only [List.mem_map, List.mem_filter] using
          (contains_iff_mem_str _ _).mp hc
      obtain ⟨q, hq, hqev, hqen⟩ := (mem_entriesFor_iff em ev en).mp hen.1
      have hpq : q = p := by
        have hinj := List.inj_on_of_nodup_map hn
        exact hinj hq hp (by rw [hqen, hlid])
      have hpen : p.2 = en := by rw [← hqen, hpq]
      rw [hpen] at ho
      rw [hen.2] at ho
      cases ho

/-- Removal only touches the named entries: the event's remaining listeners
are those whose id was not collected. -/
theorem entriesFor_cons {A V E : Type} (p : String × Entry A V E)
    (rest : Emitter A V E) (ev : String) :
    Emitter.entriesFor (p :: rest) ev
      = if p.1 == ev then p.2 :: Emitter.entriesFor rest ev
        else Emitter.entriesFor rest ev := by
  cases hev : (p.1 == ev) <;> simp [Emitter.entriesFor, List.filter_cons, hev]

theorem removeByLids_cons {A V E : Type} (p : String × Entry A V E)
    (rest : Emitter A V E) (ev : String) (rm : List String) :
    Emitter.removeByLids (p :: rest) ev rm
      = if p.1 == ev && rm.contains p.2.lid then Emitter.removeByLids rest ev rm
        else p :: Emitter.removeByLids rest ev rm := by
  unfold Emitter.removeByLids
  rw [List.filter_cons]
  cases hc : (p.1 == ev && rm.contains p.2.lid)
  · simp
  · simp

theorem entriesFor_removeByLids {A V E : Type} (em : Emitter A V E) (ev : String)
    (rm : List String) :
    Emitter.entriesFor (Emitter.removeByLids em ev rm) ev
      = (Emitter.entriesFor em ev).filter (fun en => !(rm.contains en.lid)) := by
  induction em with
  | nil => simp [Emitter.entriesFor, Emitter.removeByLids]
  | cons p rest ih =>
    rw [removeByLids_cons]
    by_cases hct : p.2.lid ∈ rm
    · cases hev : (p.1 == ev) <;>
        simp [hev, hct, entriesFor_cons, List.filter_cons, ih]
    · cases hev : (p.1 == ev) <;>
        simp [hev, hct, entriesFor_cons, List.filter_cons, ih]

/-- The until-result scan visits a prefix of the listener list: the log is
that prefix's ids and the collected removals are its once-listeners'
ids. -/
theorem emitUntilResultAux_take {A V E : Type} (a : A) (es : List (Entry A V E)) :
    ∃ k,
      (Emitter.emitUntilResultAux a es).2.1 = (es.take k).map (fun en => en.lid)
        ∧ (Emitter.emitUntilResultAux a es).2.2
          = ((es.take k).filter (fun en => en.once)).map (fun en => en.lid) := by
  induction es with
  | nil => exact ⟨0, by simp [Emitter.emitUntilResultAux]⟩
  | cons en rest ih =>
    obtain ⟨k, hlog, hrm⟩ := ih
    cases hl : en.listener a with
    | error e =>
      refine ⟨k + 1, ?_, ?_⟩
      · simp [Emitter.emitUntilResultAux, hl, hlog]
      · cases ho : en.once <;>
          simp [Emitter.emitUntilResultAux, hl, hrm, List.filter_cons, ho]
    | ok v =>
      cases v with
      | none =>
        refine ⟨k + 1, ?_, ?_⟩
        · simp [Emitter.emitUntilResultAux, hl, hlog]
        · cases ho : en.once <;>
            simp [Emitter.emitUntilResultAux, hl, hrm, List.filter_cons, ho]
      | some w =>
        refine ⟨1, ?_, ?_⟩
        · simp [Emitter.emitUntilResultAux, hl]
        · cases ho : en.once <;>
            simp [Emitter.emitUntilResultAux, hl, List.filter_cons, ho]

theorem contains_onceLids_iff {A V E : Type} (em : Emitter A V E) (ev : String)
    (hn : (lidsOf em).Nodup) (en : Entry A V E)
    (hen : en ∈ Emitter.entriesFor em ev) :
    (((Emitter.entriesFor em ev).filter (fun e0 => e0.once)).map
        (fun e0 => e0.lid)).contains en.lid = en.once := by
  have hinj := List.inj_on_of_nodup_map (nodup_entriesFor_lids em ev hn)
  cases ho : en.once with
  | true =>
    refine (contains_iff_mem_str _ _).mpr ?_
    simp only [List.mem_map, List.mem_filter]
    exact ⟨en, ⟨hen, ho⟩, rfl⟩
  | false =>
    by_contra hc
    rw [Bool.not_eq_false] at hc
    obtain ⟨en2, hen2, hlid⟩ := by
      simpa only [List.mem_map, List.mem_filter] using
        (contains_iff_mem_str _ _).mp hc
    have he : en2 = en := hinj hen2.1 hen hlid
    rw [he] at hen2
    rw [hen2.2] at ho
    cases ho

theorem until_rm_contains_char {A V E : Type} (a : A) (es : List (Entry A V E))
    (hes : (es.map (fun en => en.lid)).Nodup) (en : Entry A V E) (hen : en ∈ es) :
    (Emitter.emitUntilResultAux a es).2.2.contains en.lid
      = (en.once && (Emitter.emitUntilResultAux a es).2.1.contains en.lid) := by
  obtain ⟨k, hlog, hrm⟩ := emitUntilResultAux_take a es
  rw [hlog, hrm]
  have hinj := List.inj_on_of_nodup_map hes
  by_cases hk : en ∈ es.take k
  · have hlogc : ((es.take k).map (fun e0 => e0.lid)).contains en.lid = true := by
      refine (contains_iff_mem_str _ _).mpr ?_
      exact List.mem_map.mpr ⟨en, hk, rfl⟩
    cases ho : en.once with
    | true =>
      rw [hlogc]
      refine (contains_iff_mem_str _ _).mpr ?_
      simp only [List.mem_map, List.mem_filter]
      exact ⟨en, ⟨hk, ho⟩, rfl⟩
    | false =>
      simp only [hlogc, Bool.false_and]
      by_contra hc
      rw [Bool.not_eq_false] at hc
      obtain ⟨en2, hen2, hlid⟩ := by
        simpa only [List.mem_map, List.mem_filter] using
          (contains_iff_mem_str _ _).mp hc
      have he : en2 = en := hinj (List.mem_of_mem_take hen2.1) hen hlid
      rw [he] at hen2
      rw [hen2.2] at ho
      cases ho
  · have hlogc : ((es.take k).map (fun e0 => e0.lid)).contains en.lid = false := by
      by_contra hc
      rw [Bool.not_eq_false] at hc
      obtain ⟨en2, hen2, hlid⟩ :=
        List.mem_map.mp ((contains_iff_mem_str _ _).mp hc)
      have he : en2 = en := hinj (List.mem_of_mem_take hen2) hen hlid
      rw [he] at hen2
      exact hk hen2
    rw [hlogc, Bool.and_false]
    by_contra hc
    rw [Bool.not_eq_false] at hc
    obtain ⟨en2, hen2, hlid⟩ := by
      simpa only [List.mem_map, List.mem_filter] using
        (contains_iff_mem_str _ _).mp hc
    have he : en2 = en := hinj (List.mem_of_mem_take hen2.1) hen hlid
    rw [he] at hen2
    exact hk hen2.1

/-- C9: in every emission mode the one-shot listeners that fired are
removed exactly once, only after the emission completes, and never fire in
a later emission of the same event.  Concretely: `emit`, `emitParallel` and
a fully-iterated `emitAsync` invoke every registered listener (results in
registration order) and leave exactly the event's non-once listeners
behind; `emitUntilResult` (sync and async) removes exactly the once
listeners among the scanned prefix it invoked (its log); and re-emitting
the event runs exactly the non-once listeners. -/
theorem claim9 {A V E : Type} (em : Emitter A V E) (ev : String) (a : A)
    (hn : (lidsOf em).Nodup) :
    ((Emitter.emit em ev a).1
        = (Emitter.entriesFor em ev).map (fun en => Emitter.runEntry en a))
    ∧ ((Emitter.emit em ev a).2 = em.filter (fun p => !(p.1 == ev && p.2.once)))
    ∧ ((Emitter.emitParallel em ev a).2
        = em.filter (fun p => !(p.1 == ev && p.2.once)))
    ∧ ((Emitter.emitAsyncAll em ev a).2
        = em.filter (fun p => !(p.1 == ev && p.2.once)))
    ∧ (Emitter.entriesFor (Emitter.emitUntilResult em ev a).2.2 ev
        = (Emitter.entriesFor em ev).filter
            (fun en => !(en.once && (Emitter.emitUntilResult em ev a).2.1.contains en.lid)))
    ∧ (Emitter.entriesFor (Emitter.emitUntilResultAsync em ev a).2.2 ev
        = (Emitter.entriesFor em ev).filter
            (fun en => !(en.once && (Emitter.emitUntilResultAsync em ev a).2.1.contains en.lid)))
    ∧ ((Emitter.emit (Emitter.emit em ev a).2 ev a).1
        = ((Emitter.entriesFor em ev).filter (fun en => !en.once)).map
            (fun en => Emitter.runEntry en a)) := by
  have hpost : Emitter.entriesFor (Emitter.emit em ev a).2 ev
      = (Emitter.entriesFor em ev).filter (fun en => !en.once) := by
    show Emitter.entriesFor (Emitter.removeByLids em ev _) ev = _
    rw [entriesFor_removeByLids]
    refine List.filter_congr ?_
    intro en hen
    rw [contains_onceLids_iff em ev hn en hen]
  have huntil : Emitter.entriesFor (Emitter.emitUntilResult em ev a).2.2 ev
      = (Emitter.entriesFor em ev).filter
          (fun en => !(en.once && (Emitter.emitUntilResult em ev a).2.1.contains en.lid)) := by
    show Emitter.entriesFor (Emitter.removeByLids em ev _) ev = _
    rw [entriesFor_removeByLids]
    refine List.filter_congr ?_
    intro en hen
    rw [show (Emitter.emitUntilResult em ev a).2.1
        = (Emitter.emitUntilResultAux a (Emitter.entriesFor em ev)).2.1 from rfl]
    rw [until_rm_contains_char a _ (nodup_entriesFor_lids em ev hn) en hen]
  refine ⟨rfl, ?_, ?_, ?_, huntil, huntil, ?_⟩
  · show Emitter.removeByLids em ev _ = _
    exact removeByLids_once_all em ev hn
  · show Emitter.removeByLids em ev _ = _
    exact removeByLids_once_all em ev hn
  · show Emitter.removeByLids em ev _ = _
    exact removeByLids_once_all em ev hn
  · show (Emitter.entriesFor (Emitter.emit em ev a).2 ev).map _ = _
    rw [hpost]

/-- C9 witness: one once-listener and one plain listener for the same
event; both fire, the once entry is removed, the plain one survives, and a
second emission runs only the survivor. -/
theorem claim9_witness :
    ((Emitter.emit
        ([("e", ⟨"L1", true, fun (_ : Unit) => Except.ok (some 1)⟩),
          ("e", ⟨"L2", false, fun (_ : Unit) => Except.ok (some 2)⟩)] :
          Emitter Unit Nat Nat) "e" ()).1
      = [JsVal.value (some 1), JsVal.value (some 2)])
    ∧ ((Emitter.emit
        ([("e", ⟨"L1", true, fun (_ : Unit) => Except.ok (some 1)⟩),
          ("e", ⟨"L2", false, fun (_ : Unit) => Except.ok (some 2)⟩)] :
          Emitter Unit Nat Nat) "e" ()).2
      = [("e", ⟨"L2", false, fun (_ : Unit) => Except.ok (some 2)⟩)]) := by
  have h := claim9
    ([("e", ⟨"L1", true, fun (_ : Unit) => Except.ok (some 1)⟩),
      ("e", ⟨"L2", false, fun (_ : Unit) => Except.ok (some 2)⟩)] :
      Emitter Unit Nat Nat) "e" () (by simp [lidsOf])
  refine ⟨?_, ?_⟩
  · rw [h.1]
    rfl
  · rw [h.2.1]
    rfl

/-! ### Slash-command registration and validation (`$lib/Pack`)

`Pack.slashCommand` first rejects a duplicate id, then expands the name
pattern and validates the combinations (`isSlashCommandValid`), then stores
the command; the other interaction registration methods (`button`, the five
select-menu variants, `modal`, `userContextMenu`, `messageContextMenu`)
share the identical duplicate-id check followed by a `set`, differing only
in the stored `type` tag, and are embedded once as `registerInteraction`
parameterised by that tag.  A throw leaves the container state unchanged,
embedded as returning the error next to the untouched state. -/

inductive RegistrationError where
  | duplicateId (id : String)
  | commandNameNoCombinations (id : String)
  | commandNameExceededMaxLength (id : String)
deriving DecidableEq, Repr

structure RegisteredInteraction where
  id : String
  itype : String
  nameCombinations : List String
deriving DecidableEq, Repr

/-- Branches of one whitespace-separated pattern token: a literal word, an
alternation `(a|b|c)` (one of the non-empty options; a malformed empty
alternation has zero branches) or an optional `(word)?` (present or
absent). -/
def tokenBranches (tok : List Char) : List (Option (List Char)) :=
  match tok with
  | '(' :: rest =>
    match rest.reverse with
    | '?' :: ')' :: innerRev => [some innerRev.reverse, none]
    | ')' :: innerRev =>
      ((splitChars '|' innerRev.reverse).filter (fun o => o ≠ [])).map some
    | _ => [some tok]
  | _ => [some tok]

/-- Cartesian product across tokens; an absent optional token is simply
omitted from the combination. -/
def expandTokens : List (List Char) → List (List (List Char))
  | [] => [[]]
  | tok :: rest =>
    (tokenBranches tok).flatMap (fun b =>
      (expandTokens rest).map (fun combo =>
        match b with
        | some w => w :: combo
        | none => combo))

/-- Modelled from the spec: the pattern-expansion utility
`generateCombinations` (`$utils/pattern`) is imported by `Pack` and
`Inspector` but its source file is not part of the provided sources; per
spec 4.1 a pattern is whitespace-separated tokens, each a literal word, an
alternation group or an optional group, expanded as a Cartesian product
with absent optionals omitted and the present words re-joined with single
spaces. -/
def generateCombinations (pattern : String) : List String :=
  (expandTokens ((splitChars ' ' pattern.data).filter (fun t => t ≠ []))).map
    (fun words => jsJoin " " (words.map (fun w => String.mk w)))

/-- Embedding of `Pack.isSlashCommandValid`: zero combinations is one
distinct error; a combination of more than 3 space-separated words or
containing a word of more than 32 characters is the other. -/
def isSlashCommandValid (id : String) (nameCombinations : List String) :
    Option RegistrationError :=
  if nameCombinations.isEmpty then some (.commandNameNoCombinations id)
  else
    let nameCombinationsSplited := nameCombinations.map (fun n => splitChars ' ' n.data)
    if nameCombinationsSplited.any
        (fun nm => decide (nm.length > 3) || nm.any (fun w => decide (w.length > 32)))
    then some (.commandNameExceededMaxLength id)
    else none

structure SlashCommandConfig where
  id : String
  name : String

/-- Embedding of `Pack.slashCommand`: duplicate-id check, expansion,
validation, then `interactions.set`. -/
def slashCommand (interactions : List (String × RegisteredInteraction))
    (cfg : SlashCommandConfig) :
    Option RegistrationError × List (String × RegisteredInteraction) :=
  if (lookupKV interactions cfg.id).isSome then
    (some (.duplicateId cfg.id), interactions)
  else
    let nameCombinations := generateCombinations cfg.name
    match isSlashCommandValid cfg.id nameCombinations with
    | some e => (some e, interactions)
    | none =>
      (none, setKV interactions cfg.id ⟨cfg.id, "ChatInput", nameCombinations⟩)

/-- Embedding of the id-keyed registration methods (`button`,
`stringSelectMenu`, `userSelectMenu`, `roleSelectMenu`,
`channelSelectMenu`, `mentionableSelectMenu`, `modal`, `userContextMenu`,
`messageContextMenu`): duplicate-id check, then `interactions.set` of the
interaction data tagged with the method's type. -/
def registerInteraction (interactions : List (String × RegisteredInteraction))
    (id itype : String) :
    Option RegistrationError × List (String × RegisteredInteraction) :=
  if (lookupKV interactions id).isSome then
    (some (.duplicateId id), interactions)
  else
    (none, setKV interactions id ⟨id, itype, []⟩)

/-- C5: a slash-command registration whose expanded name has a combination
of more than 3 words or a word longer than 32 characters throws the
max-length error, and one whose expansion is empty throws the
no-combinations error; in both cases the container's interactions are
unchanged. -/
theorem claim5 (interactions : List (String × RegisteredInteraction))
    (cfg : SlashCommandConfig)
    (hfresh : lookupKV interactions cfg.id = none) :
    (generateCombinations cfg.name = [] →
        slashCommand interactions cfg
          = (some (.commandNameNoCombinations cfg.id), interactions))
      ∧ ((∃ c ∈ generateCombinations cfg.name,
            3 < (splitChars ' ' c.data).length
              ∨ ∃ w ∈ splitChars ' ' c.data, 32 < w.length) →
          slashCommand interactions cfg
            = (some (.commandNameExceededMaxLength cfg.id), interactions)) := by
  constructor
  · intro hempty
    unfold slashCommand
    simp [hfresh, isSlashCommandValid, hempty]
  · rintro ⟨c, hc, hbad⟩
    unfold slashCommand
    have hne : (generateCombinations cfg.name).isEmpty = false := by
      cases hg : generateCombinations cfg.name with
      | nil => rw [hg] at hc; cases hc
      | cons x xs => simp
    have hany : List.any
        ((generateCombinations cfg.name).map (fun n => splitChars ' ' n.data))
        (fun nm => decide (nm.length > 3) || nm.any (fun w => decide (w.length > 32)))
          = true := by
      rw [List.any_eq_true]
      refine ⟨splitChars ' ' c.data, List.mem_map.mpr ⟨c, hc, rfl⟩, ?_⟩
      rcases hbad with hlen | ⟨w, hw, hwlen⟩
      · simp [hlen]
      · rw [Bool.or_eq_true, List.any_eq_true]
        exact Or.inr ⟨w, hw, by simp [hwlen]⟩
    simp [hfresh, isSlashCommandValid, hne, hany]

/-- C5 witness: the 4-word literal name `aa bb cc dd` throws the max-length
error; the empty alternation `()` expands to zero combinations and throws
the combinations error; neither is added. -/
theorem claim5_witness :
    slashCommand [] ⟨"id1", "aa bb cc dd"⟩
        = (some (.commandNameExceededMaxLength "id1"), [])
      ∧ slashCommand [] ⟨"id2", "()"⟩
        = (some (.commandNameNoCombinations "id2"), []) :=
  ⟨(claim5 [] ⟨"id1", "aa bb cc dd"⟩ rfl).2 (by decide),
   (claim5 [] ⟨"id2", "()"⟩ rfl).1 (by decide)⟩

/-- C6: registering an interaction with an id already present in the
container's interaction collection throws the duplicate-id error and
leaves the collection unchanged — for `slashCommand` and uniformly for
every id-keyed registration method — while registering the same id in a
different (sibling) container whose collection lacks it succeeds without
error. -/
theorem claim6 (interactions interactions2 : List (String × RegisteredInteraction))
    (id itype : String) (cfg : SlashCommandConfig)
    (hdup : (lookupKV interactions id).isSome = true)
    (hcfg : cfg.id = id)
    (hfree : lookupKV interactions2 id = none) :
    (registerInteraction interactions id itype
        = (some (.duplicateId id), interactions))
      ∧ (slashCommand interactions cfg = (some (.duplicateId id), interactions))
      ∧ ((registerInteraction interactions2 id itype).1 = none)
      ∧ (isSlashCommandValid cfg.id (generateCombinations cfg.name) = none →
          (slashCommand interactions2 cfg).1 = none) := by
  subst hcfg
  refine ⟨?_, ?_, ?_, ?_⟩
  · unfold registerInteraction
    simp [hdup]
  · unfold slashCommand
    simp [hdup]
  · unfold registerInteraction
    simp [hfree]
  · intro hvalid
    unfold slashCommand
    simp [hfree, hvalid]

/-- C6 witness: a container already holding id `a` rejects a second
registration of `a` (both via the generic method and via `slashCommand`)
leaving its collection unchanged, while a sibling container without `a`
accepts it. -/
theorem claim6_witness :
    (registerInteraction [("a", ⟨"a", "Button", []⟩)] "a" "Modal"
        = (some (.duplicateId "a"), [("a", ⟨"a", "Button", []⟩)]))
      ∧ (slashCommand [("a", ⟨"a", "Button", []⟩)] ⟨"a", "hello"⟩
          = (some (.duplicateId "a"), [("a", ⟨"a", "Button", []⟩)]))
      ∧ ((registerInteraction [] "a" "Modal").1 = none)
      ∧ ((slashCommand [] ⟨"a", "hello"⟩).1 = none) := by
  have h := claim6 [("a", ⟨"a", "Button", []⟩)] [] "a" "Modal" ⟨"a", "hello"⟩
    (by decide) rfl rfl
  exact ⟨h.1, h.2.1, h.2.2.1, h.2.2.2 (by decide)⟩

/-! ### Chat-input dispatch (`$utils/handleInteraction` and
`Inspector.emit`)

`handleChatInputCommand` derives the full command name, scans the
flattened interaction cache for the first slash command whose
name-combination set contains it, and otherwise consults each cached
inspector's `emit` until one returns a defined result.  Handlers are
embedded by their outcome (`Except`, with `none` for `undefined`) plus a
handler id used for the invocation log. -/

structure CachedCmd (V E : Type) where
  nameCombinations : Option (List String)
  ctype : Option String
  handlerId : String
  run : Except E (Option V)
deriving Repr

/-- The cache-scan condition of `handleChatInputCommand`:
`'nameCombinations' in interactionData &&
interactionData.nameCombinations?.includes(fullCommandName) &&
(!interactionData.type || interactionData.type === 'ChatInput')`. -/
def cmdMatches {V E : Type} (c : CachedCmd V E) (fullCommandName : String) : Bool :=
  (match c.nameCombinations with
   | some l => l.contains fullCommandName
   | none => false)
    && (match c.ctype with
        | none => true
        | some t => t == "ChatInput")

/-- Inspector state for the chat-input category: the combination-to-pattern
map and the pattern-keyed handlers (handler id, outcome). -/
structure InspectorM (V E : Type) where
  chatInputCombinationsMap : List (String × String)
  chatInputHandlers : List (String × String × Except E (Option V))
deriving Repr

/-- Embedding of `Inspector.emit` for `type = 'chatInput'`: resolve the
literal id through the combinations map, run the pattern's handler, and
swallow any thrown error (returning `undefined`); unmatched ids return
`undefined` without running anything. -/
def inspectorEmitChatInput {V E : Type} (insp : InspectorM V E) (id : String) :
    Option V × List String :=
  match lookupKV insp.chatInputCombinationsMap id with
  | some pattern =>
    match lookupKV insp.chatInputHandlers pattern with
    | some h =>
      match h.2 with
      | .ok v => (v, [h.1])
      | .error _ => (none, [h.1])
    | none => (none, [])
  | none => (none, [])

/-- Inspector loop of `handleChatInputCommand`: first defined result wins,
otherwise fall through; collects the invoked handler ids. -/
def inspectorScan {V E : Type} :
    List (InspectorM V E) → String → List String × Option E
  | [], _ => ([], none)
  | insp :: rest, idn =>
    let r := inspectorEmitChatInput insp idn
    match r.1 with
    | some _ => (r.2, none)
    | none =>
      let rr := inspectorScan rest idn
      (r.2 ++ rr.1, rr.2)

/-- Embedding of `handleChatInputCommand`: first matching cached command's
handler runs (its error, if any, propagates to the dispatch boundary);
otherwise the cached inspectors are consulted in order.  Returns the
invoked handler ids and a propagated error, if any. -/
def handleChatInputCommand {V E : Type} (interactions : List (CachedCmd V E))
    (inspectors : List (InspectorM V E)) (fullCommandName : String) :
    List String × Option E :=
  match interactions.find? (fun c => cmdMatches c fullCommandName) with
  | some c =>
    match c.run with
    | .ok _ => ([c.handlerId], none)
    | .error e => ([c.handlerId], some e)
  | none => inspectorScan inspectors fullCommandName

/-- C8 counterexample.  The claim's hypothesis only asks that no inspector
return a defined result; but an inspector whose combination map contains
the derived name still invokes its handler even when that handler returns
`undefined`, so dispatch is not handler-free: with no matching command and
one matching inspector whose handler yields `undefined`, the handler `h`
runs. -/
theorem claim8_counterexample :
    ((∀ c ∈ ([] : List (CachedCmd Nat Nat)), cmdMatches c "k" = false)
      ∧ (inspectorEmitChatInput
          (⟨[("k", "p")], [("p", "h", Except.ok none)]⟩ : InspectorM Nat Nat) "k").1
            = none
      ∧ (handleChatInputCommand ([] : List (CachedCmd Nat Nat))
          [⟨[("k", "p")], [("p", "h", Except.ok none)]⟩] "k").1 ≠ []) := by
  refine ⟨?_, rfl, ?_⟩
  · intro c hc
    cases hc
  · decide

/-- C8 (amended): an inbound slash-command interaction whose derived full
command name matches no cached command's name-combination set and is
contained in no cached Inspector's combination map produces no handler
invocation and no error — dispatch is a silent no-op. -/
theorem claim8_amended {V E : Type} (interactions : List (CachedCmd V E))
    (inspectors : List (InspectorM V E)) (fullCommandName : String)
    (hcmd : ∀ c ∈ interactions, cmdMatches c fullCommandName = false)
    (hinsp : ∀ insp ∈ inspectors,
      lookupKV insp.chatInputCombinationsMap fullCommandName = none) :
    handleChatInputCommand interactions inspectors fullCommandName = ([], none) := by
  unfold handleChatInputCommand
  have hfind : interactions.find? (fun c => cmdMatches c fullCommandName) = none := by
    rw [List.find?_eq_none]
    intro c hc
    simp [hcmd c hc]
  rw [hfind]
  show inspectorScan inspectors fullCommandName = ([], none)
  induction inspectors with
  | nil => rfl
  | cons insp rest ih =>
    have h1 : lookupKV insp.chatInputCombinationsMap fullCommandName = none :=
      hinsp insp (by simp)
    have h2 : inspectorEmitChatInput insp fullCommandName = (none, []) := by
      unfold inspectorEmitChatInput
      rw [h1]
    rw [inspectorScan, h2]
    simp only [List.nil_append]
    rw [ih (fun i hi => hinsp i (by simp [hi]))]

/-- C8 witness: one non-matching cached command and one inspector whose
map lacks the name — dispatch returns no log and no error. -/
theorem claim8_amended_witness :
    handleChatInputCommand
        ([⟨some ["other"], some "ChatInput", "h0", Except.ok none⟩] :
          List (CachedCmd Nat Nat))
        [⟨[("x", "p")], [("p", "h", Except.ok (some 1))]⟩] "k"
      = ([], none) :=
  claim8_amended _ _ "k" (by decide) (by decide)

/-! ### Flattened interaction cache (`Tessen.pushCache` / `refresh`)

The root's caches are flat maps keyed by the bare resource id, each entry
tagged with the tree path at which it was found; `refresh` clears them and
rebuilds by a depth-first walk.  Only the interaction slice is embedded
(the locale/event/inspector slices use the identical `set` loop). -/

inductive PackI (V E : Type) where
  | mk (id : String) (interactions : List (String × CachedCmd V E))
      (subs : List (PackI V E))

structure CacheData (V E : Type) where
  path : List String
  data : CachedCmd V E

mutual

/-- Embedding of `Tessen.pushCache`: set each of this pack's interactions
into the flat cache under its bare id (overwriting any entry another
container already put there), then recurse into the sub-packs with the
extended path. -/
def pushCache {V E : Type} (cache : List (String × CacheData V E)) :
    PackI V E → List String → List (String × CacheData V E)
  | .mk pid ints subs, path =>
    pushCacheList
      (ints.foldl (fun c kv => setKV c kv.1 ⟨path, kv.2⟩) cache)
      subs (path ++ [pid])

def pushCacheList {V E : Type} (cache : List (String × CacheData V E)) :
    List (PackI V E) → List String → List (String × CacheData V E)
  | [], _ => cache
  | p :: rest, path => pushCacheList (pushCache cache p path) rest path

end

/-- The interaction slice of `Tessen.refresh`: clear the cache and walk the
tree from the root with the empty path. -/
def refreshInteractionsCache {V E : Type} (root : PackI V E) :
    List (String × CacheData V E) :=
  pushCache [] root []

/-- C10 (implicit): the flattened cache is keyed by bare id, so when two
sibling containers both register id `k` (which per-container registration
permits), `refresh` keeps exactly one entry for `k` — the one from the
container visited last in the depth-first walk — and chat-input dispatch
over the cache can only reach that surviving handler. -/
theorem claim10 {V E : Type} (r c1 c2 k : String) (d1 d2 : CachedCmd V E)
    (fullCommandName : String)
    (hmatch : cmdMatches d2 fullCommandName = true) :
    (lookupKV (refreshInteractionsCache
          (PackI.mk r [] [PackI.mk c1 [(k, d1)] [], PackI.mk c2 [(k, d2)] []]))
        k = some ⟨[r], d2⟩)
      ∧ (((refreshInteractionsCache
            (PackI.mk r [] [PackI.mk c1 [(k, d1)] [], PackI.mk c2 [(k, d2)] []])).map
              Prod.fst).count k = 1)
      ∧ ((handleChatInputCommand
            ((refreshInteractionsCache
              (PackI.mk r [] [PackI.mk c1 [(k, d1)] [], PackI.mk c2 [(k, d2)] []])).map
                (fun kv => kv.2.data))
            [] fullCommandName).1 = [d2.handlerId]) := by
  have hcache : refreshInteractionsCache
      (PackI.mk r [] [PackI.mk c1 [(k, d1)] [], PackI.mk c2 [(k, d2)] []])
        = [(k, ⟨[r], d2⟩)] := by
    simp [refreshInteractionsCache, pushCache, pushCacheList, setKV]
  rw [hcache]
  refine ⟨by simp [lookupKV], by simp, ?_⟩
  unfold handleChatInputCommand
  simp only [List.map_cons, List.map_nil, List.find?]
  rw [hmatch]
  cases hrun : d2.run with
  | ok v => simp [hrun]
  | error e => simp [hrun]

/-- C10 witness: two sibling packs both register a slash command with id
`k`; after refresh only the second sibling's entry survives and dispatch of
its name runs that handler. -/
theorem claim10_witness :
    (lookupKV (refreshInteractionsCache
          (PackI.mk "r" []
            [PackI.mk "c1" [("k", ⟨some ["go"], some "ChatInput", "h1",
              (Except.ok none : Except Nat (Option Nat))⟩)] [],
             PackI.mk "c2" [("k", ⟨some ["go"], some "ChatInput", "h2",
              (Except.ok none : Except Nat (Option Nat))⟩)] []]))
        "k" = some ⟨["r"], ⟨some ["go"], some "ChatInput", "h2", Except.ok none⟩⟩)
      ∧ ((handleChatInputCommand
            ((refreshInteractionsCache
              (PackI.mk "r" []
                [PackI.mk "c1" [("k", ⟨some ["go"], some "ChatInput", "h1",
                  (Except.ok none : Except Nat (Option Nat))⟩)] [],
                 PackI.mk "c2" [("k", ⟨some ["go"], some "ChatInput", "h2",
                  (Except.ok none : Except Nat (Option Nat))⟩)] []])).map
                (fun kv => kv.2.data))
            [] "go").1 = ["h2"]) := by
  have h := claim10 "r" "c1" "c2" "k"
    (⟨some ["go"], some "ChatInput", "h1", (Except.ok none : Except Nat (Option Nat))⟩)
    (⟨some ["go"], some "ChatInput", "h2", (Except.ok none : Except Nat (Option Nat))⟩)
    "go" (by decide)
  exact ⟨h.1, h.2.2⟩

end Tescord
